import Mathlib

/-!
A verification development for `repo2txt.py`, a directory-tree scanner that
filters entries by glob patterns, classifies files as text or binary, and
renders a tree diagram plus a content dump.

The filesystem is modelled as a nested inductive (`FSEntry`).  Paths are lists
of POSIX path segments.  Fallible I/O is explicit: a directory carries a
`listable` flag (false models `os.listdir` raising `PermissionError`) and a
file carries a `readable` flag (false models `open` raising a permission
error); `os.path.getsize` reads metadata and always succeeds in this model,
and the filesystem is frozen for the run (no concurrent modification).
Recursive functions over the nested tree take an explicit fuel argument and
are wrapped at fuel `FSEntry.esize` or `Node.nsize` of their argument, which
always suffices; this keeps every definition structurally recursive so that
concrete runs reduce inside the kernel.  Bytes are natural numbers below 256; Python's byte-string and
`str` primitives (`bytes.translate`, code-point comparison, `str.lower`,
UTF-8 decoding with errors ignored) are modelled over `List Nat` and
`List Char` directly.
-/

/-- The two kinds of `OSError` this program can meet: `PermissionError`
(caught by `except PermissionError` and by `except IOError`) and any other
I/O error (caught only by `except IOError`). -/
inductive PyError where
  | permissionError : PyError
  | ioError : PyError
deriving DecidableEq

/-- A frozen filesystem subtree.  A file stores its byte contents and whether
the process may open it; a directory stores whether `os.listdir` succeeds on
it. -/
inductive FSEntry where
  | file (nm : String) (readable : Bool) (bytes : List Nat) : FSEntry
  | dir (nm : String) (listable : Bool) (entries : List FSEntry) : FSEntry

mutual

/-- Number of filesystem entries in a subtree (at least 1); used as the fuel
measure for the fueled recursions, defined structurally so that it both
evaluates in the kernel and compiles. -/
def FSEntry.esize : FSEntry → Nat
  | .file _ _ _ => 1
  | .dir _ _ entries => 1 + esizeList entries

/-- Total `FSEntry.esize` of a list of entries, counting one extra per
element. -/
def esizeList : List FSEntry → Nat
  | [] => 0
  | e :: rest => FSEntry.esize e + 1 + esizeList rest

end

/-- The base name of a filesystem entry, as `os.listdir` reports it. -/
def FSEntry.name : FSEntry → String
  | .file n _ _ => n
  | .dir n _ _ => n

/-- `os.path.isdir` on an entry of the modelled filesystem. -/
def FSEntry.isDirE : FSEntry → Bool
  | .file _ _ _ => false
  | .dir _ _ _ => true

/-- The in-memory node tree built by `scan_directory`: the dicts with keys
`name`, `type`, `size`, `content` (files) and `name`, `type`, `size`,
`children`, `file_count`, `dir_count` (directories). -/
inductive Node where
  | file (nm : String) (size : Nat) (content : String) : Node
  | dir (nm : String) (size : Nat) (children : List Node) (fc : Nat) (dc : Nat) : Node

mutual

/-- Number of nodes in a node tree (at least 1); the fuel measure for the
fueled recursions over `Node`. -/
def Node.nsize : Node → Nat
  | .file _ _ _ => 1
  | .dir _ _ children _ _ => 1 + nsizeList children

/-- Total `Node.nsize` of a list of nodes, counting one extra per element. -/
def nsizeList : List Node → Nat
  | [] => 0
  | n :: rest => Node.nsize n + 1 + nsizeList rest

end

/-- `node["name"]`. -/
def Node.name : Node → String
  | .file n _ _ => n
  | .dir n _ _ _ _ => n

/-- `node["size"]`. -/
def Node.size : Node → Nat
  | .file _ s _ => s
  | .dir _ s _ _ _ => s

/-- `node["type"] == "directory"`. -/
def Node.isDirType : Node → Bool
  | .file _ _ _ => false
  | .dir _ _ _ _ _ => true

/-- `node["children"]` (empty for a file node, which has no such key). -/
def Node.children : Node → List Node
  | .file _ _ _ => []
  | .dir _ _ c _ _ => c

/-- `node["file_count"]` (a file node has no such key; 0 is dead code). -/
def Node.file_count : Node → Nat
  | .file _ _ _ => 0
  | .dir _ _ _ fc _ => fc

/-- `node["dir_count"]` (a file node has no such key; 0 is dead code). -/
def Node.dir_count : Node → Nat
  | .file _ _ _ => 0
  | .dir _ _ _ _ dc => dc

/-- `node["content"]` of a file node. -/
def Node.content : Node → String
  | .file _ _ c => c
  | .dir _ _ _ _ _ => ""

/-! ## Python string comparison and lowercasing -/

/-- Python's lexicographic `<=` on strings, compared code point by code
point (structural, so it evaluates inside the kernel). -/
def charListLe : List Char → List Char → Bool
  | [], _ => true
  | _ :: _, [] => false
  | a :: as, b :: bs => if a = b then charListLe as bs else decide (a < b)

/-- Python `s1 <= s2` on `str` values. -/
def pyStrLe (a b : String) : Bool := charListLe a.data b.data

/-- Python `str.lower()` (restricted to ASCII letters, which is all the
program's default patterns use). -/
def pyLower (s : String) : String := String.mk (s.data.map Char.toLower)

/-! ## Content classifier: `is_text_file` -/

/-- The delete-set built by `bytes([7, 8, 9, 10, 12, 13, 27] +
list(range(0x20, 0x100)))` in `is_text_file`. -/
def textchars : List Nat := [7, 8, 9, 10, 12, 13, 27] ++ List.range' 0x20 0xE0

/-- `open(file_path, 'rb')` followed by reading: returns the file's bytes, or
the permission error that opening an unreadable file raises. -/
def openBytes (readable : Bool) (bytes : List Nat) : Except PyError (List Nat) :=
  if readable then .ok bytes else .error .permissionError

/-- `is_text_file`: reads the first 1024 bytes and applies
`chunk.translate(None, textchars)` — deleting every allow-set byte — and
reports text iff nothing remains.  `except IOError: return False` catches any
open/read failure. -/
def is_text_file (openResult : Except PyError (List Nat)) : Bool :=
  match openResult with
  | .ok fileBytes =>
    let chunk := fileBytes.take 1024
    (chunk.filter (fun b => !(textchars.contains b))).isEmpty
  | .error _ => false

/-! ## UTF-8 decoding with `errors='ignore'`

`open(item_path, 'r', encoding='utf-8', errors='ignore').read()` decodes the
whole file, dropping malformed sequences.  The decoder below follows the
standard UTF-8 validation ranges (continuation bytes `0x80`–`0xBF`, with the
restricted second-byte ranges for `0xE0`, `0xED`, `0xF0`, `0xF4`), restarting
after the maximal valid prefix of an invalid sequence, as CPython's `ignore`
handler does. -/

/-- Is `b` a UTF-8 continuation byte? -/
def isCont (b : Nat) : Bool := 0x80 ≤ b && b ≤ 0xBF

/-- Decode a UTF-8 byte sequence, dropping malformed sequences.  Every step
consumes at least one byte, so fuel equal to the byte count suffices; the
fuel argument keeps the recursion structural. -/
def utf8DecodeIgnore : Nat → List Nat → List Char
  | 0, _ => []
  | _ + 1, [] => []
  | fuel + 1, b :: rest =>
    if b < 0x80 then Char.ofNat b :: utf8DecodeIgnore fuel rest
    else if 0xC2 ≤ b && b ≤ 0xDF then
      match rest with
      | c1 :: rest1 =>
        if isCont c1 then
          Char.ofNat ((b - 0xC0) * 64 + (c1 - 0x80)) :: utf8DecodeIgnore fuel rest1
        else utf8DecodeIgnore fuel rest
      | [] => []
    else if 0xE0 ≤ b && b ≤ 0xEF then
      match rest with
      | c1 :: rest1 =>
        if (if b = 0xE0 then 0xA0 ≤ c1 && c1 ≤ 0xBF
            else if b = 0xED then 0x80 ≤ c1 && c1 ≤ 0x9F
            else isCont c1) then
          match rest1 with
          | c2 :: rest2 =>
            if isCont c2 then
              Char.ofNat ((b - 0xE0) * 4096 + (c1 - 0x80) * 64 + (c2 - 0x80)) ::
                utf8DecodeIgnore fuel rest2
            else utf8DecodeIgnore fuel rest1
          | [] => []
        else utf8DecodeIgnore fuel rest
      | [] => []
    else if 0xF0 ≤ b && b ≤ 0xF4 then
      match rest with
      | c1 :: rest1 =>
        if (if b = 0xF0 then 0x90 ≤ c1 && c1 ≤ 0xBF
            else if b = 0xF4 then 0x80 ≤ c1 && c1 ≤ 0x8F
            else isCont c1) then
          match rest1 with
          | c2 :: rest2 =>
            if isCont c2 then
              match rest2 with
              | c3 :: rest3 =>
                if isCont c3 then
                  Char.ofNat ((b - 0xF0) * 262144 + (c1 - 0x80) * 4096 +
                      (c2 - 0x80) * 64 + (c3 - 0x80)) :: utf8DecodeIgnore fuel rest3
                else utf8DecodeIgnore fuel rest2
              | [] => []
            else utf8DecodeIgnore fuel rest1
          | [] => []
        else utf8DecodeIgnore fuel rest
      | [] => []
    else utf8DecodeIgnore fuel rest

/-- Python decoding of a whole byte string with `errors='ignore'`. -/
def pyDecodeUtf8Ignore (bytes : List Nat) : String :=
  String.mk (utf8DecodeIgnore bytes.length bytes)

/-- `open(item_path, 'r', encoding='utf-8', errors='ignore').read()`. -/
def readText (readable : Bool) (bytes : List Nat) : Except PyError String :=
  if readable then .ok (pyDecodeUtf8Ignore bytes) else .error .permissionError

/-! ## Pattern matcher: `fnmatch`

Python's `fnmatch.fnmatch(name, pattern)` (on POSIX, where `os.path.normcase`
is the identity): `*` matches any run of characters including separators, `?`
matches exactly one character, `[...]` matches a character class with ranges
and `!` negation; an unclosed `[` is a literal.  The matcher is fueled; each
step consumes at least one pattern or name character, so
`pattern.length + name.length + 1` fuel always suffices. -/

/-- Split a bracket-class body at the first `]`; `none` if there is none. -/
def splitBracket : List Char → Option (List Char × List Char)
  | [] => none
  | ']' :: rest => some ([], rest)
  | c :: rest =>
    match splitBracket rest with
    | some p => some (c :: p.1, p.2)
    | none => none

/-- Parse the contents after a `[`: returns (negated?, class body, rest of the
pattern), or `none` when the bracket is unclosed (then `[` is a literal).  A
leading `!` negates; a `]` directly after `[` (or after `[!`) is a literal
member of the class. -/
def bracketSpec (rest : List Char) : Option (Bool × List Char × List Char) :=
  let neg : Bool := match rest with
    | '!' :: _ => true
    | _ => false
  let r1 : List Char := match rest with
    | '!' :: r => r
    | r => r
  match r1 with
  | ']' :: r2 =>
    match splitBracket r2 with
    | some p => some (neg, ']' :: p.1, p.2)
    | none => none
  | _ =>
    match splitBracket r1 with
    | some p => some (neg, p.1, p.2)
    | none => none

/-- Does character `c` match the (un-negated) body of a bracket class?
`a-b` is a code-point range; a `-` without both endpoints is a literal. -/
def bracketMatch (c : Char) : List Char → Bool
  | a :: '-' :: b :: rest => (decide (a ≤ c) && decide (c ≤ b)) || bracketMatch c rest
  | a :: rest => decide (c = a) || bracketMatch c rest
  | [] => false

/-- The fueled core of `fnmatch.fnmatch`: does the pattern match the whole
name? -/
def fnmatchFuel : Nat → List Char → List Char → Bool
  | 0, _, _ => false
  | _ + 1, [], s => s.isEmpty
  | fuel + 1, pc :: ps, s =>
    if pc = '*' then
      fnmatchFuel fuel ps s ||
        (match s with
         | [] => false
         | _ :: ss => fnmatchFuel fuel (pc :: ps) ss)
    else if pc = '?' then
      match s with
      | [] => false
      | _ :: ss => fnmatchFuel fuel ps ss
    else if pc = '[' then
      match bracketSpec ps with
      | some spec =>
        match s with
        | [] => false
        | c :: ss =>
          (if spec.1 then !(bracketMatch c spec.2.1) else bracketMatch c spec.2.1) &&
            fnmatchFuel fuel spec.2.2 ss
      | none =>
        match s with
        | [] => false
        | c :: ss => decide (c = '[') && fnmatchFuel fuel ps ss
    else
      match s with
      | [] => false
      | c' :: ss => decide (c' = pc) && fnmatchFuel fuel ps ss

/-- Does the pattern contain a literal `/` outside any bracket class?  (A
device for stating the separator property; fueled like the matcher, with
`pattern.length + 1` fuel always sufficient.) -/
def hasLitSepFuel : Nat → List Char → Bool
  | 0, _ => false
  | _ + 1, [] => false
  | fuel + 1, pc :: rest =>
    if pc = '[' then
      match bracketSpec rest with
      | some spec => hasLitSepFuel fuel spec.2.2
      | none => hasLitSepFuel fuel rest
    else if pc = '/' then true
    else hasLitSepFuel fuel rest

/-- Does a pattern string contain a literal path separator outside bracket
classes? -/
def patHasSep (pattern : String) : Bool :=
  hasLitSepFuel (pattern.data.length + 1) pattern.data

/-- `fnmatch.fnmatch(name, pattern)` on POSIX. -/
def fnmatch (name pattern : String) : Bool :=
  fnmatchFuel (pattern.data.length + name.data.length + 1) pattern.data name.data

/-! ## Paths

Paths are lists of POSIX segments (the scan root's absolute path followed by
entry names).  `os.path.relpath` and `os.path.basename` are modelled on
segment lists. -/

/-- The length of the common prefix of two segment lists
(`posixpath.relpath`'s common-prefix computation). -/
def commonPrefixLen : List String → List String → Nat
  | a :: as, b :: bs => if a = b then commonPrefixLen as bs + 1 else 0
  | _, _ => 0

/-- `os.path.relpath(path, base)` as a segment list: `..` segments for the
part of `base` outside the common prefix, then the rest of `path`. -/
def relpathSegs (path base : List String) : List String :=
  let k := commonPrefixLen path base
  List.replicate (base.length - k) ".." ++ path.drop k

/-- Join segments with `/` (no leading or trailing separator). -/
def renderSegs : List String → String
  | [] => ""
  | [x] => x
  | x :: rest => x ++ "/" ++ renderSegs rest

/-- `os.path.relpath(path, base)` as a string; `.` when the paths coincide. -/
def relpathStr (path base : List String) : String :=
  match relpathSegs path base with
  | [] => "."
  | segs => renderSegs segs

/-- `os.path.basename` of a segment-list path (`""` for the empty path). -/
def basenameSegs (path : List String) : String := path.getLast?.getD ""

/-! ## `should_exclude` -/

/-- The `for pattern in ignore_patterns` loop body of `should_exclude`:
first the relative path and the base name are matched; then, for a
directory, the base name and its lowercase form are matched again. -/
def matchesAny (rel bn : String) (isDir : Bool) : List String → Bool
  | [] => false
  | pattern :: rest =>
    if fnmatch rel pattern || fnmatch bn pattern then true
    else if isDir && (fnmatch bn pattern || fnmatch (pyLower bn) pattern) then true
    else matchesAny rel bn isDir rest

/-- `should_exclude(path, base_path, ignore_patterns)`.  The `isDir` argument
is the value of `os.path.isdir(path)` on the modelled filesystem. -/
def should_exclude (path base : List String) (isDir : Bool)
    (ignorePatterns : List String) : Bool :=
  matchesAny (relpathStr path base) (basenameSegs path) isDir ignorePatterns

/-- `DEFAULT_IGNORE_PATTERNS`, verbatim from the source. -/
def DEFAULT_IGNORE_PATTERNS : List String :=
  ["*.pyc", "*.pyo", "*.pyd", "__pycache__",
   "node_modules", "bower_components",
   ".git", ".svn", ".hg", ".gitignore",
   "*.svg", "*.png", "*.jpg", "*.jpeg", "*.gif",
   "venv", ".venv", "env", "*venv*",
   ".idea", ".vscode",
   "*.log", "*.bak", "*.swp", "*.tmp",
   ".DS_Store",
   "Thumbs.db",
   "build", "dist",
   "*.egg-info",
   "*.so", "*.dylib", "*.dll"]

/-! ## Sort orders

Python's `sorted` is a stable sort; a stable sort with respect to a total
preorder has a unique result, so Mathlib's (stable) insertion sort models it
exactly. -/

/-- Order of `sorted(os.listdir(path))`: raw names, code-point order. -/
def entryRel : FSEntry → FSEntry → Prop :=
  fun a b => pyStrLe a.name b.name = true

instance : DecidableRel entryRel := fun _ _ => instDecidableEqBool _ _

/-- `sorted(os.listdir(path))` (the entries in Python name order). -/
def sortEntries (l : List FSEntry) : List FSEntry := List.insertionSort entryRel l

/-- The tree renderer's sort key `(x["type"] != "directory", x["name"].lower())`
compared as a Python tuple: directories (`false`) before files (`true`). -/
def treeRank (n : Node) : Bool := !n.isDirType

/-- Tuple order on `(treeRank, lowered name)` used by `create_tree_structure`. -/
def treeRel : Node → Node → Prop :=
  fun a b =>
    (treeRank a = false ∧ treeRank b = true) ∨
      (treeRank a = treeRank b ∧ pyStrLe (pyLower a.name) (pyLower b.name) = true)

instance : DecidableRel treeRel := fun _ _ => instDecidableOr

/-- `sorted(node["children"], key=lambda x: (x["type"] != "directory",
x["name"].lower()))`. -/
def sortTreeChildren (l : List Node) : List Node := List.insertionSort treeRel l

/-- The content renderer's order: `key=lambda x: x["name"].lower()`, kind
ignored. -/
def contentRel : Node → Node → Prop :=
  fun a b => pyStrLe (pyLower a.name) (pyLower b.name) = true

instance : DecidableRel contentRel := fun _ _ => instDecidableEqBool _ _

/-- `sorted(node["children"], key=lambda x: x["name"].lower())`. -/
def sortContentChildren (l : List Node) : List Node := List.insertionSort contentRel l

/-! ## Tree builder: `scan_directory` -/

/-- The content chosen for one file entry in the scan loop: the size check
first (no read at all when the file is too large), then classification, then
either the full decoded text (`open(..., 'r', encoding='utf-8',
errors='ignore').read()`) or the binary sentinel. -/
def fileContent (readable : Bool) (bytes : List Nat) (file_size max_file_size : Nat) :
    Except PyError String :=
  if file_size > max_file_size then .ok "[File too large to include]"
  else
    if is_text_file (openBytes readable bytes) then readText readable bytes
    else .ok "[Binary file]"

/-- The mutable `result` dict of `scan_directory` while the entry loop runs. -/
structure ScanAcc where
  nm : String
  size : Nat
  children : List Node
  file_count : Nat
  dir_count : Nat

/-- The `result` dict as a directory `Node`. -/
def ScanAcc.toNode (a : ScanAcc) : Node :=
  .dir a.nm a.size a.children a.file_count a.dir_count

/-- The initial `result` dict for a directory named `nm`. -/
def initAcc (nm : String) : ScanAcc := ScanAcc.mk nm 0 [] 0 0

/-- The `for item in sorted(os.listdir(path))` loop of `scan_directory`.
`scanChild` is the recursive call on a subdirectory.  The first component is
the exception escaping the loop, if any (`none` when the loop finishes); the
second is the state of `result` at that moment — Python's `except` arm sees
the partially filled dict. -/
def scanItems (scanChild : FSEntry → List String → Except PyError Node)
    (path : List String) (ignorePatterns : List String) (maxFileSize : Nat) :
    List FSEntry → ScanAcc → Option PyError × ScanAcc
  | [], acc => (none, acc)
  | item :: rest, acc =>
    if should_exclude (path ++ [item.name]) path item.isDirE ignorePatterns then
      scanItems scanChild path ignorePatterns maxFileSize rest acc
    else
      match item with
      | .file nm readable bytes =>
        match fileContent readable bytes bytes.length maxFileSize with
        | .error e => (some e, acc)
        | .ok content =>
          scanItems scanChild path ignorePatterns maxFileSize rest
            (ScanAcc.mk acc.nm (acc.size + bytes.length)
              (acc.children ++ [Node.file nm bytes.length content])
              (acc.file_count + 1) acc.dir_count)
      | .dir _ _ _ =>
        match scanChild item (path ++ [item.name]) with
        | .error e => (some e, acc)
        | .ok subdir =>
          scanItems scanChild path ignorePatterns maxFileSize rest
            (ScanAcc.mk acc.nm (acc.size + subdir.size)
              (acc.children ++ [subdir])
              (acc.file_count + subdir.file_count)
              (acc.dir_count + (1 + subdir.dir_count)))

/-- Fueled `scan_directory(path, ignore_patterns, max_file_size)`.  Calling it
on a file models `os.listdir` raising `NotADirectoryError` (a non-permission
`OSError`), which the `except PermissionError` arm does not catch.  A
non-listable directory models `os.listdir` raising `PermissionError`: it is
caught, a warning is printed (a side effect not modelled), and the
accumulated `result` — still empty, since `listdir` failed before the loop —
is returned.  A `PermissionError` escaping the loop mid-iteration is caught
the same way, returning the partial `result`; any other error propagates. -/
def scanFuel : Nat → FSEntry → List String → List String → Nat → Except PyError Node
  | 0, _, _, _, _ => .error .ioError
  | _ + 1, .file _ _ _, _, _, _ => .error .ioError
  | fuel + 1, .dir nm listable entries, path, ignorePatterns, maxFileSize =>
    if listable then
      match scanItems (fun e p => scanFuel fuel e p ignorePatterns maxFileSize)
          path ignorePatterns maxFileSize (sortEntries entries) (initAcc nm) with
      | (none, acc) => .ok acc.toNode
      | (some .permissionError, acc) => .ok acc.toNode
      | (some .ioError, _) => .error .ioError
    else .ok (initAcc nm).toNode

/-- `scan_directory`: the fueled scanner at fuel `fs.esize`, which always
suffices (each recursive call strictly decreases `esize`). -/
def scan_directory (fs : FSEntry) (path : List String)
    (ignorePatterns : List String) (maxFileSize : Nat) : Except PyError Node :=
  scanFuel fs.esize fs path ignorePatterns maxFileSize

/-! ## Tree renderer: `create_tree_structure` -/

/-- `"└── "` for the last child in its sibling group, `"├── "` otherwise. -/
def treeConnector (is_last : Bool) : String := if is_last then "└── " else "├── "

/-- The `for i, child in enumerate(children)` loop: `is_last` is true exactly
for the final child. -/
def renderKids (render : Node → String → Bool → String) (pfx : String) :
    List Node → String
  | [] => ""
  | [c] => render c pfx true
  | c :: rest => render c pfx false ++ renderKids render pfx rest

/-- Fueled `create_tree_structure(node, prefix, is_last)`: one line per node
with a non-empty name, then the sorted children with the prefix extended by
four spaces (last sibling) or a bar continuation. -/
def treeFuel : Nat → Node → String → Bool → String
  | 0, _, _, _ => ""
  | fuel + 1, node, pfx, is_last =>
    let line :=
      if node.name ≠ "" then pfx ++ treeConnector is_last ++ node.name ++ "\n" else ""
    match node with
    | .file _ _ _ => line
    | .dir _ _ children _ _ =>
      let newPfx := pfx ++ (if is_last then "    " else "│   ")
      line ++ renderKids (fun c p l => treeFuel fuel c p l) newPfx (sortTreeChildren children)

/-- `create_tree_structure`, at always-sufficient fuel. -/
def create_tree_structure (node : Node) (pfx : String) (is_last : Bool) : String :=
  treeFuel node.nsize node pfx is_last

/-! ## Content renderer: `create_file_content_string` -/

/-- `os.path.join(base, nm)` for the relative paths the renderer builds
(`base` never ends in a separator and `nm` is a bare name). -/
def ospJoin (base nm : String) : String := if base = "" then nm else base ++ "/" ++ nm

/-- `"=" * 48 + "\n"`. -/
def sepLine : String := String.mk (List.replicate 48 '=') ++ "\n"

/-- The `output += ...` accumulation over a list of emitted pieces. -/
def joinStrs : List String → String
  | [] => ""
  | s :: rest => s ++ joinStrs rest

/-- Fueled `create_file_content_string(node, base_path)`: a file contributes a
separator, a `File:` header with the joined relative path, a separator, and
its content followed by a blank line; a directory recurses into its children
sorted case-insensitively by name alone, concatenating their outputs. -/
def contentFuel : Nat → Node → String → String
  | 0, _, _ => ""
  | _ + 1, .file nm _ content, base =>
    sepLine ++ "File: " ++ ospJoin base nm ++ "\n" ++ sepLine ++ content ++ "\n\n"
  | fuel + 1, .dir nm _ children _ _, base =>
    let current := if nm ≠ "" then ospJoin base nm else ""
    joinStrs ((sortContentChildren children).map (fun c => contentFuel fuel c current))

/-- `create_file_content_string`, at always-sufficient fuel. -/
def create_file_content_string (node : Node) (base : String) : String :=
  contentFuel node.nsize node base

/-! ## Order lemmas for the three sort relations -/

theorem charListLe_refl (l : List Char) : charListLe l l = true := by
  induction l with
  | nil => rfl
  | cons a as ih => simpa [charListLe] using ih

theorem charListLe_total (a b : List Char) :
    charListLe a b = true ∨ charListLe b a = true := by
  induction a generalizing b with
  | nil => left; rfl
  | cons x xs ih =>
    cases b with
    | nil => right; rfl
    | cons y ys =>
      by_cases hxy : x = y
      · subst hxy
        simpa [charListLe] using ih ys
      · rcases lt_or_gt_of_ne hxy with h | h
        · left; simp [charListLe, hxy, h]
        · right; simp [charListLe, Ne.symm hxy, h]

theorem charListLe_trans {a b c : List Char} (h1 : charListLe a b = true)
    (h2 : charListLe b c = true) : charListLe a c = true := by
  induction a generalizing b c with
  | nil => rfl
  | cons x xs ih =>
    cases b with
    | nil => simp [charListLe] at h1
    | cons y ys =>
      cases c with
      | nil => simp [charListLe] at h2
      | cons z zs =>
        by_cases hxy : x = y
        · subst hxy
          by_cases hyz : x = z
          · subst hyz
            simp only [charListLe, if_pos rfl] at h1 h2 ⊢
            exact ih h1 h2
          · simp only [charListLe, if_neg hyz] at h2 ⊢
            simp only [charListLe, if_pos rfl] at h1
            exact h2
        · simp only [charListLe, if_neg hxy, decide_eq_true_eq] at h1
          by_cases hyz : y = z
          · have hxz : x < z := hyz ▸ h1
            simp [charListLe, ne_of_lt hxz, hxz]
          · simp only [charListLe, if_neg hyz, decide_eq_true_eq] at h2
            have hxz : x < z := lt_trans h1 h2
            simp [charListLe, ne_of_lt hxz, hxz]

instance : IsTotal FSEntry entryRel :=
  ⟨fun a b => charListLe_total a.name.data b.name.data⟩

instance : IsTrans FSEntry entryRel :=
  ⟨fun _ _ _ => charListLe_trans⟩

instance : IsTotal Node contentRel :=
  ⟨fun a b => charListLe_total (pyLower a.name).data (pyLower b.name).data⟩

instance : IsTrans Node contentRel :=
  ⟨fun _ _ _ => charListLe_trans⟩

instance : IsTotal Node treeRel := by
  refine ⟨fun a b => ?_⟩
  unfold treeRel
  cases ha : treeRank a <;> cases hb : treeRank b
  · rcases charListLe_total (pyLower a.name).data (pyLower b.name).data with h | h
    · exact Or.inl (Or.inr ⟨rfl, h⟩)
    · exact Or.inr (Or.inr ⟨rfl, h⟩)
  · exact Or.inl (Or.inl ⟨rfl, rfl⟩)
  · exact Or.inr (Or.inl ⟨rfl, rfl⟩)
  · rcases charListLe_total (pyLower a.name).data (pyLower b.name).data with h | h
    · exact Or.inl (Or.inr ⟨rfl, h⟩)
    · exact Or.inr (Or.inr ⟨rfl, h⟩)

instance : IsTrans Node treeRel := by
  refine ⟨fun a b c hab hbc => ?_⟩
  unfold treeRel at hab hbc ⊢
  rcases hab with ⟨ha, hb⟩ | ⟨hab, hle1⟩
  · rcases hbc with ⟨hb', hc⟩ | ⟨hbc, hle2⟩
    · rw [hb] at hb'; cases hb'
    · exact Or.inl ⟨ha, hbc ▸ hb⟩
  · rcases hbc with ⟨hb', hc⟩ | ⟨hbc, hle2⟩
    · exact Or.inl ⟨hab ▸ hb', hc⟩
    · exact Or.inr ⟨hab.trans hbc, charListLe_trans hle1 hle2⟩

/-! ## Size (fuel) lemmas -/

theorem esize_pos (e : FSEntry) : 1 ≤ e.esize := by
  cases e <;> simp [FSEntry.esize]

theorem esize_le_of_mem {e : FSEntry} {l : List FSEntry} (h : e ∈ l) :
    e.esize ≤ esizeList l := by
  induction l with
  | nil => cases h
  | cons x xs ih =>
    rcases List.mem_cons.mp h with rfl | h
    · simp [esizeList]; omega
    · have := ih h
      simp [esizeList]; omega

theorem mem_sortEntries {e : FSEntry} {l : List FSEntry} (h : e ∈ sortEntries l) :
    e ∈ l :=
  (List.perm_insertionSort entryRel l).subset h

theorem nsize_pos (n : Node) : 1 ≤ n.nsize := by
  cases n <;> simp [Node.nsize]

theorem nsize_le_of_mem {n : Node} {l : List Node} (h : n ∈ l) :
    n.nsize ≤ nsizeList l := by
  induction l with
  | nil => cases h
  | cons x xs ih =>
    rcases List.mem_cons.mp h with rfl | h
    · simp [nsizeList]; omega
    · have := ih h
      simp [nsizeList]; omega

theorem mem_sortTreeChildren {n : Node} {l : List Node} (h : n ∈ sortTreeChildren l) :
    n ∈ l :=
  (List.perm_insertionSort treeRel l).subset h

theorem mem_sortContentChildren {n : Node} {l : List Node}
    (h : n ∈ sortContentChildren l) : n ∈ l :=
  (List.perm_insertionSort contentRel l).subset h

/-! ## The classifier's allow-set -/

theorem mem_textchars {b : Nat} :
    b ∈ textchars ↔
      b = 7 ∨ b = 8 ∨ b = 9 ∨ b = 10 ∨ b = 12 ∨ b = 13 ∨ b = 27 ∨
        (0x20 ≤ b ∧ b ≤ 0xFF) := by
  simp only [textchars, List.mem_append, List.mem_cons, List.not_mem_nil, or_false,
    List.mem_range'_1]
  omega

theorem is_text_file_ok_iff (bytes : List Nat) :
    is_text_file (.ok bytes) = true ↔ ∀ b ∈ bytes.take 1024, b ∈ textchars := by
  simp [is_text_file, List.isEmpty_iff, List.filter_eq_nil_iff]

/-- C3: `is_text_file` samples at most the first 1024 bytes; it returns true
iff every sampled byte is in the allow-set {7, 8, 9, 10, 12, 13, 27} ∪
[0x20, 0xFF]; any sampled byte in 0x00–0x06, 0x0B, 0x0E–0x1A, or 0x1C–0x1F
forces the binary classification (false). -/
theorem is_text_file_allowset :
    (∀ bytes : List Nat,
      is_text_file (.ok bytes) = is_text_file (.ok (bytes.take 1024))) ∧
    (∀ bytes : List Nat,
      is_text_file (.ok bytes) = true ↔
        ∀ b ∈ bytes.take 1024,
          b = 7 ∨ b = 8 ∨ b = 9 ∨ b = 10 ∨ b = 12 ∨ b = 13 ∨ b = 27 ∨
            (0x20 ≤ b ∧ b ≤ 0xFF)) ∧
    (∀ bytes : List Nat, ∀ b ∈ bytes.take 1024,
      b ≤ 0x06 ∨ b = 0x0B ∨ (0x0E ≤ b ∧ b ≤ 0x1A) ∨ (0x1C ≤ b ∧ b ≤ 0x1F) →
        is_text_file (.ok bytes) = false) := by
  refine ⟨?_, ?_, ?_⟩
  · intro bytes
    simp [is_text_file, List.take_take]
  · intro bytes
    rw [is_text_file_ok_iff]
    constructor
    · intro h b hb
      exact mem_textchars.mp (h b hb)
    · intro h b hb
      exact mem_textchars.mpr (h b hb)
  · intro bytes b hb hbad
    rcases hbt : is_text_file (.ok bytes) with _ | _
    · rfl
    · exfalso
      have := (is_text_file_ok_iff bytes).mp hbt b hb
      rcases mem_textchars.mp this with h | h | h | h | h | h | h | h <;> omega

/-- Witness for `is_text_file_allowset`: a NUL byte in the sample forces the
binary classification. -/
theorem is_text_file_allowset_witness : is_text_file (.ok [0]) = false :=
  is_text_file_allowset.2.2 [0] 0 (by decide) (by decide)

/-! ## File-content selection -/

/-- If the classifier reports text, the open that it performed succeeded, so
the file is readable. -/
theorem is_text_readable {readable : Bool} {bytes : List Nat}
    (h : is_text_file (openBytes readable bytes) = true) : readable = true := by
  cases readable
  · simp [openBytes, is_text_file] at h
  · rfl

/-- C2: exactly one of the three content forms is chosen per file, the size
check taking precedence over classification; a file strictly larger than
`max_file_size` gets the too-large sentinel with its bytes never read (the
result is the same whatever the file's bytes or readability are); a file of
size exactly `max_file_size` is classified and, when text, included with the
decode of its full byte contents. -/
theorem fileContent_three_forms (readable : Bool) (bytes : List Nat)
    (file_size max_file_size : Nat) :
    ((file_size > max_file_size ∧
        fileContent readable bytes file_size max_file_size =
          .ok "[File too large to include]") ∨
      (file_size ≤ max_file_size ∧ is_text_file (openBytes readable bytes) = true ∧
        fileContent readable bytes file_size max_file_size =
          .ok (pyDecodeUtf8Ignore bytes)) ∨
      (file_size ≤ max_file_size ∧ is_text_file (openBytes readable bytes) = false ∧
        fileContent readable bytes file_size max_file_size = .ok "[Binary file]")) ∧
    (file_size > max_file_size →
      ∀ (readable2 : Bool) (bytes2 : List Nat),
        fileContent readable2 bytes2 file_size max_file_size =
          .ok "[File too large to include]") := by
  constructor
  · by_cases hgt : file_size > max_file_size
    · left
      exact ⟨hgt, by simp [fileContent, hgt]⟩
    · rcases ht : is_text_file (openBytes readable bytes) with _ | _
      · right; right
        exact ⟨by omega, rfl, by simp [fileContent, hgt, ht]⟩
      · right; left
        refine ⟨by omega, rfl, ?_⟩
        have hr := is_text_readable ht
        subst hr
        simp [fileContent, hgt, ht, readText]
  · intro hgt readable2 bytes2
    simp [fileContent, hgt]

/-- Witness for `fileContent_three_forms`: a 1-byte text file at the exact
limit is included in full; a 2-byte unreadable file over the limit still gets
the too-large sentinel without being read. -/
theorem fileContent_three_forms_witness :
    fileContent true [65] 1 1 = .ok "A" ∧
      fileContent false [65, 66] 2 1 = .ok "[File too large to include]" := by
  constructor
  · rcases (fileContent_three_forms true [65] 1 1).1 with ⟨h, _⟩ | ⟨_, _, h⟩ | ⟨_, h, _⟩
    · exact absurd h (by decide)
    · exact h
    · exact absurd h (by decide)
  · exact (fileContent_three_forms false [65, 66] 2 1).2 (by decide) false [65, 66]

/-! ## `should_exclude`: characterization and basename collapse -/

theorem matchesAny_iff (rel bn : String) (isDir : Bool) (pats : List String) :
    matchesAny rel bn isDir pats = true ↔
      ∃ p ∈ pats,
        fnmatch rel p = true ∨ fnmatch bn p = true ∨
          (isDir = true ∧
            (fnmatch bn p = true ∨ fnmatch (pyLower bn) p = true)) := by
  induction pats with
  | nil => simp [matchesAny]
  | cons q rest ih =>
    unfold matchesAny
    by_cases h1 : (fnmatch rel q || fnmatch bn q) = true
    · simp only [h1, if_true, true_iff]
      rcases Bool.or_eq_true_iff.mp h1 with h | h
      · exact ⟨q, List.mem_cons_self q rest, Or.inl h⟩
      · exact ⟨q, List.mem_cons_self q rest, Or.inr (Or.inl h)⟩
    · rw [if_neg h1]
      by_cases h2 : (isDir && (fnmatch bn q || fnmatch (pyLower bn) q)) = true
      · simp only [h2, if_true, true_iff]
        rcases Bool.and_eq_true_iff.mp h2 with ⟨hd, hm⟩
        exact ⟨q, List.mem_cons_self q rest, Or.inr (Or.inr ⟨hd, Bool.or_eq_true_iff.mp hm⟩)⟩
      · rw [if_neg h2, ih]
        constructor
        · rintro ⟨p, hp, hcase⟩
          exact ⟨p, List.mem_cons_of_mem q hp, hcase⟩
        · rintro ⟨p, hp, hcase⟩
          rcases List.mem_cons.mp hp with rfl | hp2
          · exfalso
            rcases hcase with h | h | ⟨hd, h⟩
            · exact h1 (by simp [h])
            · exact h1 (by simp [h])
            · exact h2 (by rcases h with h | h <;> simp [hd, h])
          · exact ⟨p, hp2, hcase⟩

/-- C4: `should_exclude(path, base_path, patterns)` is a pure predicate that
is true iff the relative path or the base name glob-matches some pattern,
with the directory-only case-insensitive fallback on the base name; the
second conjunct exhibits the asymmetry — the directory `VENV` is excluded by
the pattern `venv` while a file `VENV` is not. -/
theorem should_exclude_characterization :
    (∀ (path base : List String) (isDir : Bool) (pats : List String),
      should_exclude path base isDir pats = true ↔
        ∃ p ∈ pats,
          fnmatch (relpathStr path base) p = true ∨
            fnmatch (basenameSegs path) p = true ∨
            (isDir = true ∧
              (fnmatch (basenameSegs path) p = true ∨
                fnmatch (pyLower (basenameSegs path)) p = true))) ∧
    should_exclude ["r", "VENV"] ["r"] true ["venv"] = true ∧
    should_exclude ["r", "VENV"] ["r"] false ["venv"] = false := by
  refine ⟨?_, by decide, by decide⟩
  intro path base isDir pats
  exact matchesAny_iff (relpathStr path base) (basenameSegs path) isDir pats

/-! ## The relative path of a direct child collapses to its base name -/

theorem commonPrefixLen_append (p t : List String) :
    commonPrefixLen (p ++ t) p = p.length := by
  induction p with
  | nil => cases t <;> rfl
  | cons x xs ih => simp [commonPrefixLen, ih]

theorem relpath_parent (p : List String) (nm : String) :
    relpathStr (p ++ [nm]) p = nm := by
  unfold relpathStr relpathSegs
  rw [commonPrefixLen_append]
  simp [List.drop_left, renderSegs]

theorem basename_parent (p : List String) (nm : String) :
    basenameSegs (p ++ [nm]) = nm := by
  simp [basenameSegs, List.getLast?_concat]

/-- In the scanner's calling pattern (`base` is the immediate parent of
`path`), `should_exclude` reduces to matching the base name alone. -/
theorem should_exclude_parent (p : List String) (nm : String) (isDir : Bool)
    (pats : List String) :
    should_exclude (p ++ [nm]) p isDir pats = matchesAny nm nm isDir pats := by
  unfold should_exclude
  rw [relpath_parent, basename_parent]

/-! ## Literal separators in patterns -/

theorem toLower_eq_slash {c : Char} (h : c.toLower = '/') : c = '/' := by
  by_cases hc : c.toNat ≥ 65 ∧ c.toNat ≤ 90
  · exfalso
    obtain ⟨h1, h2⟩ := hc
    have hcc : c = Char.ofNat c.toNat := (Char.ofNat_toNat c).symm
    interval_cases hn : c.toNat <;> rw [hcc] at h <;> exact absurd h (by decide)
  · simp only [Char.toLower] at h
    rw [if_neg hc] at h
    exact h

theorem slash_mem_pyLower {nm : String} (h : '/' ∈ (pyLower nm).data) :
    '/' ∈ nm.data := by
  simp only [pyLower, List.mem_map] at h
  obtain ⟨c, hc, hlc⟩ := h
  rwa [toLower_eq_slash hlc] at hc

/-- A match against a pattern with a literal separator outside bracket
classes puts a separator into the matched name. -/
theorem fnmatchFuel_sep {f : Nat} : ∀ {pat s : List Char} {g : Nat},
    fnmatchFuel f pat s = true → hasLitSepFuel g pat = true → '/' ∈ s := by
  induction f with
  | zero =>
    intro pat s g h1 _
    simp [fnmatchFuel] at h1
  | succ f ih =>
    intro pat s g h1 h2
    cases g with
    | zero => simp [hasLitSepFuel] at h2
    | succ g =>
      cases pat with
      | nil => simp [hasLitSepFuel] at h2
      | cons pc ps =>
        by_cases hstar : pc = '*'
        · subst hstar
          have h2' : hasLitSepFuel g ps = true := by
            simpa [hasLitSepFuel] using h2
          simp only [fnmatchFuel, if_pos rfl] at h1
          rcases Bool.or_eq_true_iff.mp h1 with h | h
          · exact ih h h2'
          · cases s with
            | nil => simp at h
            | cons c ss => exact List.mem_cons_of_mem c (ih h h2)
        · by_cases hq : pc = '?'
          · subst hq
            have h2' : hasLitSepFuel g ps = true := by
              simpa [hasLitSepFuel] using h2
            simp only [fnmatchFuel, if_neg hstar, if_pos rfl] at h1
            cases s with
            | nil => simp at h1
            | cons c ss => exact List.mem_cons_of_mem c (ih h1 h2')
          · by_cases hbr : pc = '['
            · subst hbr
              rcases hbs : bracketSpec ps with _ | spec
              · simp only [fnmatchFuel, hasLitSepFuel, if_neg hstar, if_neg hq,
                  if_pos rfl, hbs, eq_self_iff_true, if_true] at h1 h2
                cases s with
                | nil => simp at h1
                | cons c ss =>
                  simp only [Bool.and_eq_true, decide_eq_true_eq] at h1
                  exact List.mem_cons_of_mem c (ih h1.2 h2)
              · simp only [fnmatchFuel, hasLitSepFuel, if_neg hstar, if_neg hq,
                  if_pos rfl, hbs, eq_self_iff_true, if_true] at h1 h2
                cases s with
                | nil => simp at h1
                | cons c ss =>
                  simp only [Bool.and_eq_true] at h1
                  exact List.mem_cons_of_mem c (ih h1.2 h2)
            · simp only [fnmatchFuel, hasLitSepFuel, if_neg hstar, if_neg hq,
                if_neg hbr] at h1 h2
              cases s with
              | nil => simp at h1
              | cons c ss =>
                simp only [Bool.and_eq_true, decide_eq_true_eq] at h1
                by_cases hsl : pc = '/'
                · rw [h1.1, hsl]
                  exact List.mem_cons_self '/' ss
                · rw [if_neg hsl] at h2
                  exact List.mem_cons_of_mem c (ih h1.2 h2)

theorem fnmatch_sep_mem {name pattern : String} (h1 : fnmatch name pattern = true)
    (h2 : patHasSep pattern = true) : '/' ∈ name.data := by
  unfold fnmatch at h1
  unfold patHasSep at h2
  exact fnmatchFuel_sep h1 h2

theorem matchesAny_sep_false {nm : String} {isDir : Bool} {pats : List String}
    (hpats : ∀ pat ∈ pats, patHasSep pat = true) (hnm : '/' ∉ nm.data) :
    matchesAny nm nm isDir pats = false := by
  induction pats with
  | nil => rfl
  | cons q rest ih =>
    have hq := hpats q (List.mem_cons_self q rest)
    have hf1 : fnmatch nm q = false := by
      rcases hb : fnmatch nm q with _ | _
      · rfl
      · exact absurd (fnmatch_sep_mem hb hq) hnm
    have hf2 : fnmatch (pyLower nm) q = false := by
      rcases hb : fnmatch (pyLower nm) q with _ | _
      · rfl
      · exact absurd (slash_mem_pyLower (fnmatch_sep_mem hb hq)) hnm
    unfold matchesAny
    simp only [hf1, hf2, Bool.or_self, Bool.and_false, if_false, Bool.false_eq_true]
    exact ih fun pat hp => hpats pat (List.mem_cons_of_mem q hp)

/-- C10 counterexample: the bracket pattern whose class ranges from the
separator character to the digit zero contains a path separator, the name
`0` does not, yet the scanner's exclusion check (called exactly as
`scan_directory` calls it, with `base` the entry's parent) matches — the
separator sits inside a bracket range that the character `0` falls into.  So
a pattern containing a path separator can match a scanned entry. -/
theorem should_exclude_sep_counterexample :
    should_exclude (["r"] ++ ["0"]) ["r"] false ["[/-0]"] = true ∧
      '/' ∈ "[/-0]".data ∧ '/' ∉ "0".data := by
  exact ⟨by decide, by decide, by decide⟩

/-- C10 (amended): `scan_directory` always calls `should_exclude` with
`base_path` the entry's immediate parent, so the relative path collapses to
the base name and the decision depends only on the base name and kind
(first conjunct: the parent path is irrelevant); consequently a pattern whose
path separator occurs as a literal outside bracket classes never matches a
scanned entry whose name is separator-free (second conjunct). -/
theorem should_exclude_basename_only :
    (∀ (p q : List String) (nm : String) (isDir : Bool) (pats : List String),
      should_exclude (p ++ [nm]) p isDir pats =
        should_exclude (q ++ [nm]) q isDir pats) ∧
    (∀ (p : List String) (nm : String) (isDir : Bool) (pats : List String),
      (∀ pat ∈ pats, patHasSep pat = true) → '/' ∉ nm.data →
        should_exclude (p ++ [nm]) p isDir pats = false) := by
  constructor
  · intro p q nm isDir pats
    rw [should_exclude_parent, should_exclude_parent]
  · intro p nm isDir pats hpats hnm
    rw [should_exclude_parent]
    exact matchesAny_sep_false hpats hnm

/-- Witness for `should_exclude_basename_only`: the pattern `docs/build`
(literal separator) excludes no scanned entry, here the file `a` under any
parent. -/
theorem should_exclude_basename_only_witness :
    should_exclude (["r"] ++ ["a"]) ["r"] false ["docs/build"] = false :=
  should_exclude_basename_only.2 ["r"] "a" false ["docs/build"] (by decide) (by decide)

/-! ## Basic facts about the scanner -/

/-- Calling the scanner on a file raises `NotADirectoryError` from
`os.listdir`, which nothing catches. -/
theorem scanFuel_file (fuel : Nat) (nm : String) (readable : Bool)
    (bytes : List Nat) (path ignorePatterns : List String) (maxFileSize : Nat) :
    scanFuel fuel (.file nm readable bytes) path ignorePatterns maxFileSize =
      .error .ioError := by
  cases fuel <;> rfl

/-- The entry loop never changes the `name` field of `result`. -/
theorem scanItems_nm (scanChild : FSEntry → List String → Except PyError Node)
    (path ignorePatterns : List String) (maxFileSize : Nat) :
    ∀ (items : List FSEntry) (acc : ScanAcc),
      (scanItems scanChild path ignorePatterns maxFileSize items acc).2.nm = acc.nm := by
  intro items
  induction items with
  | nil => intro acc; rfl
  | cons item rest ih =>
    intro acc
    by_cases hx : should_exclude (path ++ [item.name]) path item.isDirE ignorePatterns
    · simp only [scanItems, if_pos hx]
      exact ih acc
    · cases item with
      | file nm readable bytes =>
        rcases hfc : fileContent readable bytes bytes.length maxFileSize with e | content
        · simp only [scanItems, if_neg hx, hfc]
        · simp only [scanItems, if_neg hx, hfc]
          exact ih _
      | dir nm2 l2 en2 =>
        rcases hsc : scanChild (.dir nm2 l2 en2)
            (path ++ [FSEntry.name (.dir nm2 l2 en2)]) with e | sub
        · simp only [scanItems, if_neg hx, hsc]
        · simp only [scanItems, if_neg hx, hsc]
          exact ih _

/-- A successful scan returns a directory node carrying the scanned
directory's base name. -/
theorem scanFuel_ok_shape {fuel : Nat} {fs : FSEntry} {path ignorePatterns : List String}
    {maxFileSize : Nat} {node : Node}
    (h : scanFuel fuel fs path ignorePatterns maxFileSize = .ok node) :
    node.isDirType = true ∧ node.name = fs.name := by
  cases fuel with
  | zero => exact absurd h (by simp [scanFuel])
  | succ fuel =>
    cases fs with
    | file nm readable bytes => exact absurd h (by simp [scanFuel])
    | dir nm listable entries =>
      rw [scanFuel] at h
      by_cases hl : listable = true
      · rw [if_pos hl] at h
        rcases hsi : scanItems (fun e p => scanFuel fuel e p ignorePatterns maxFileSize)
            path ignorePatterns maxFileSize (sortEntries entries) (initAcc nm) with ⟨err, acc⟩
        have hnm : acc.nm = nm := by
          have := scanItems_nm (fun e p => scanFuel fuel e p ignorePatterns maxFileSize)
            path ignorePatterns maxFileSize (sortEntries entries) (initAcc nm)
          rw [hsi] at this
          exact this
        rw [hsi] at h
        rcases err with _ | e
        · simp only [Except.ok.injEq] at h
          subst h
          exact ⟨rfl, hnm.symm ▸ rfl⟩
        · cases e with
          | permissionError =>
            simp only [Except.ok.injEq] at h
            subst h
            exact ⟨rfl, hnm.symm ▸ rfl⟩
          | ioError => exact absurd h (by simp)
      · rw [if_neg hl] at h
        simp only [Except.ok.injEq] at h
        subst h
        exact ⟨rfl, rfl⟩

/-- Every file entry gets some content: the content computation never raises
in the frozen-filesystem model (an unreadable file is classified binary by
the classifier's fail-safe, so its text read never happens). -/
theorem fileContent_isOk (readable : Bool) (bytes : List Nat)
    (file_size max_file_size : Nat) :
    ∃ s, fileContent readable bytes file_size max_file_size = .ok s := by
  by_cases hgt : file_size > max_file_size
  · exact ⟨"[File too large to include]", by simp [fileContent, hgt]⟩
  · rcases ht : is_text_file (openBytes readable bytes) with _ | _
    · exact ⟨"[Binary file]", by simp [fileContent, hgt, ht]⟩
    · have hr := is_text_readable ht
      subst hr
      exact ⟨pyDecodeUtf8Ignore bytes, by simp [fileContent, hgt, ht, readText]⟩

/-- If the recursive call succeeds on every subdirectory item, the entry loop
finishes without an escaping exception. -/
theorem scanItems_no_error (scanChild : FSEntry → List String → Except PyError Node)
    (path ignorePatterns : List String) (maxFileSize : Nat) :
    ∀ (items : List FSEntry) (acc : ScanAcc),
      (∀ e ∈ items, e.isDirE = true → ∀ p, ∃ nd, scanChild e p = .ok nd) →
      ∃ acc2, scanItems scanChild path ignorePatterns maxFileSize items acc =
        (none, acc2) := by
  intro items
  induction items with
  | nil => intro acc _; exact ⟨acc, rfl⟩
  | cons item rest ih =>
    intro acc hchild
    have hrest : ∀ e ∈ rest, e.isDirE = true → ∀ p, ∃ nd, scanChild e p = .ok nd :=
      fun e he => hchild e (List.mem_cons_of_mem item he)
    by_cases hx : should_exclude (path ++ [item.name]) path item.isDirE ignorePatterns
    · simp only [scanItems, if_pos hx]
      exact ih acc hrest
    · cases item with
      | file nm readable bytes =>
        obtain ⟨s, hs⟩ := fileContent_isOk readable bytes bytes.length maxFileSize
        simp only [scanItems, if_neg hx, hs]
        exact ih _ hrest
      | dir nm2 l2 en2 =>
        obtain ⟨nd, hnd⟩ := hchild (.dir nm2 l2 en2) (List.mem_cons_self _ _) rfl
          (path ++ [FSEntry.name (.dir nm2 l2 en2)])
        simp only [scanItems, if_neg hx, hnd]
        exact ih _ hrest

/-- On a directory, the fueled scanner always succeeds once the fuel covers
the subtree. -/
theorem scanFuel_dir_ok :
    ∀ (fuel : Nat) (nm : String) (listable : Bool) (entries : List FSEntry)
      (path ignorePatterns : List String) (maxFileSize : Nat),
      FSEntry.esize (.dir nm listable entries) ≤ fuel →
      ∃ node, scanFuel fuel (.dir nm listable entries) path ignorePatterns maxFileSize =
        .ok node := by
  intro fuel
  induction fuel with
  | zero =>
    intro nm listable entries path ignorePatterns maxFileSize hsz
    exfalso
    have := esize_pos (.dir nm listable entries)
    omega
  | succ fuel ih =>
    intro nm listable entries path ignorePatterns maxFileSize hsz
    by_cases hl : listable = true
    · have hchild : ∀ e ∈ sortEntries entries, e.isDirE = true →
          ∀ p, ∃ nd, scanFuel fuel e p ignorePatterns maxFileSize = .ok nd := by
        intro e he hd p
        have hmem := mem_sortEntries he
        have hesz : FSEntry.esize e ≤ fuel := by
          have h1 := esize_le_of_mem hmem
          have h2 : FSEntry.esize (.dir nm listable entries) = 1 + esizeList entries := rfl
          omega
        cases e with
        | file _ _ _ => simp [FSEntry.isDirE] at hd
        | dir nm2 l2 en2 => exact ih nm2 l2 en2 p ignorePatterns maxFileSize hesz
      obtain ⟨acc2, hacc2⟩ := scanItems_no_error
        (fun e p => scanFuel fuel e p ignorePatterns maxFileSize)
        path ignorePatterns maxFileSize (sortEntries entries) (initAcc nm) hchild
      refine ⟨acc2.toNode, ?_⟩
      rw [scanFuel, if_pos hl, hacc2]
    · refine ⟨(initAcc nm).toNode, ?_⟩
      rw [scanFuel, if_neg hl]

/-- C9: non-permission I/O failures during per-file size or content access
never escape the scan in the frozen-filesystem model: a read failure inside
the classifier makes `is_text_file` return false (binary/unreadable); an
unreadable file within the size limit degrades to the binary placeholder
instead of an error; and a scan rooted at a directory always returns a node,
never an exception, whatever permission flags the subtree carries. -/
theorem scan_error_degradation :
    (∀ e : PyError, is_text_file (.error e) = false) ∧
    (∀ (bytes : List Nat) (file_size max_file_size : Nat),
      file_size ≤ max_file_size →
        fileContent false bytes file_size max_file_size = .ok "[Binary file]") ∧
    (∀ (nm : String) (listable : Bool) (entries : List FSEntry)
        (path ignorePatterns : List String) (maxFileSize : Nat),
      ∃ node,
        scan_directory (.dir nm listable entries) path ignorePatterns maxFileSize =
          .ok node) := by
  refine ⟨fun e => rfl, ?_, ?_⟩
  · intro bytes file_size max_file_size hle
    have hng : ¬(file_size > max_file_size) := by omega
    have ht : is_text_file (openBytes false bytes) = false := rfl
    simp [fileContent, hng, ht]
  · intro nm listable entries path ignorePatterns maxFileSize
    exact scanFuel_dir_ok _ nm listable entries path ignorePatterns maxFileSize le_rfl

/-- Witness for `scan_error_degradation`: an unreadable one-byte file under
the limit degrades to the binary placeholder. -/
theorem scan_error_degradation_witness :
    fileContent false [0] 1 2 = .ok "[Binary file]" :=
  scan_error_degradation.2.1 [0] 1 2 (by decide)

/-- A non-listable directory scans to the empty partial result (the
`PermissionError` from `os.listdir` is caught before anything accumulates). -/
theorem scanFuel_unlistable (fuel : Nat) (nm : String) (entries : List FSEntry)
    (path ignorePatterns : List String) (maxFileSize : Nat) (hf : 1 ≤ fuel) :
    scanFuel fuel (.dir nm false entries) path ignorePatterns maxFileSize =
      .ok (Node.dir nm 0 [] 0 0) := by
  cases fuel with
  | zero => omega
  | succ fuel =>
    rw [scanFuel]
    simp [initAcc, ScanAcc.toNode]

/-- C8: a permission error enumerating a directory is caught and reported as
a warning rather than raised: the scan returns the directory node with the
partial results accumulated before the error (here, the empty accumulation,
since `os.listdir` fails before the loop), and an enclosing scan carries on —
a parent directory containing such a child still scans successfully, with the
child present as an empty directory node. -/
theorem scan_permission_error_partial :
    (∀ (nm : String) (entries : List FSEntry) (path ignorePatterns : List String)
        (maxFileSize : Nat),
      scan_directory (.dir nm false entries) path ignorePatterns maxFileSize =
        .ok (Node.dir nm 0 [] 0 0)) ∧
    (∀ (pnm nm : String) (entries : List FSEntry) (path ignorePatterns : List String)
        (maxFileSize : Nat),
      should_exclude (path ++ [nm]) path true ignorePatterns = false →
        scan_directory (.dir pnm true [.dir nm false entries]) path ignorePatterns
            maxFileSize =
          .ok (Node.dir pnm 0 [Node.dir nm 0 [] 0 0] 0 1)) := by
  constructor
  · intro nm entries path ignorePatterns maxFileSize
    apply scanFuel_unlistable
    have := esize_pos (.dir nm false entries)
    omega
  · intro pnm nm entries path ignorePatterns maxFileSize hexc
    show scanFuel _ _ _ _ _ = _
    have h : FSEntry.esize (.dir pnm true [.dir nm false entries]) =
        (esizeList entries + 2) + 1 := by
      simp [FSEntry.esize, esizeList]
      omega
    rw [h, scanFuel, if_pos rfl]
    have hsort : sortEntries [FSEntry.dir nm false entries] =
        [FSEntry.dir nm false entries] := rfl
    rw [hsort]
    have hname : FSEntry.name (.dir nm false entries) = nm := rfl
    have hnx : ¬(should_exclude (path ++ [FSEntry.name (.dir nm false entries)]) path
        (FSEntry.isDirE (.dir nm false entries)) ignorePatterns = true) := by
      rw [hname]
      show ¬(should_exclude (path ++ [nm]) path true ignorePatterns = true)
      simp [hexc]
    have hsub := scanFuel_unlistable (esizeList entries + 2) nm entries
      (path ++ [FSEntry.name (.dir nm false entries)]) ignorePatterns maxFileSize
      (by omega)
    simp only [scanItems, if_neg hnx, hsub, initAcc, ScanAcc.toNode]
    rfl

/-- Witness for `scan_permission_error_partial`: a parent with one unlistable
child directory scans to a tree holding the child's empty partial node. -/
theorem scan_permission_error_partial_witness :
    scan_directory (.dir "r" true [.dir "s" false []]) [] [] 0 =
      .ok (Node.dir "r" 0 [Node.dir "s" 0 [] 0 0] 0 1) :=
  scan_permission_error_partial.2 "r" "s" [] [] [] 0 (by decide)

/-! ## Aggregation invariants (size, file_count, dir_count) -/

/-- Fueled check of the aggregation invariants on every directory node of a
tree: `size` is the sum of the direct children's sizes, `file_count` is the
number of direct file children plus the direct subdirectories' `file_count`s,
and `dir_count` is the number of direct directory children plus their
`dir_count`s.  At fuel 0 the check is vacuously true, so holding at every
fuel means holding throughout the tree. -/
def aggFuel : Nat → Node → Bool
  | 0, _ => true
  | _ + 1, .file _ _ _ => true
  | fuel + 1, .dir _ size children fc dc =>
    decide (size = (children.map Node.size).sum) &&
    decide (fc = (children.filter (fun c => !c.isDirType)).length +
      ((children.filter Node.isDirType).map Node.file_count).sum) &&
    decide (dc = (children.filter Node.isDirType).length +
      ((children.filter Node.isDirType).map Node.dir_count).sum) &&
    children.all (fun c => aggFuel fuel c)

/-- The loop invariant of `scan_directory`'s entry loop: the running sums in
`result` agree with the children accumulated so far, and every accumulated
child satisfies the aggregation invariants. -/
def accAgg (acc : ScanAcc) : Prop :=
  acc.size = (acc.children.map Node.size).sum ∧
  acc.file_count = (acc.children.filter (fun c => !c.isDirType)).length +
    ((acc.children.filter Node.isDirType).map Node.file_count).sum ∧
  acc.dir_count = (acc.children.filter Node.isDirType).length +
    ((acc.children.filter Node.isDirType).map Node.dir_count).sum ∧
  ∀ c ∈ acc.children, ∀ g, aggFuel g c = true

theorem scanItems_agg (scanChild : FSEntry → List String → Except PyError Node)
    (path ignorePatterns : List String) (maxFileSize : Nat) :
    ∀ (items : List FSEntry) (acc : ScanAcc),
      (∀ e ∈ items, ∀ p nd, scanChild e p = .ok nd →
        nd.isDirType = true ∧ ∀ g, aggFuel g nd = true) →
      accAgg acc →
      accAgg (scanItems scanChild path ignorePatterns maxFileSize items acc).2 := by
  intro items
  induction items with
  | nil => intro acc _ hacc; exact hacc
  | cons item rest ih =>
    intro acc hchild hacc
    have hrest : ∀ e ∈ rest, ∀ p nd, scanChild e p = .ok nd →
        nd.isDirType = true ∧ ∀ g, aggFuel g nd = true :=
      fun e he => hchild e (List.mem_cons_of_mem item he)
    obtain ⟨hsz, hfc, hdc, hall⟩ := hacc
    by_cases hx : should_exclude (path ++ [item.name]) path item.isDirE ignorePatterns
    · simp only [scanItems, if_pos hx]
      exact ih acc hrest ⟨hsz, hfc, hdc, hall⟩
    · cases item with
      | file nm readable bytes =>
        rcases hfcnt : fileContent readable bytes bytes.length maxFileSize with e | content
        · simp only [scanItems, if_neg hx, hfcnt]
          exact ⟨hsz, hfc, hdc, hall⟩
        · simp only [scanItems, if_neg hx, hfcnt]
          apply ih _ hrest
          refine ⟨?_, ?_, ?_, ?_⟩
          · simp [List.map_append, List.sum_append, hsz, Node.size]
          · simp [List.filter_append, List.length_append, List.map_append,
              List.sum_append, hfc, Node.isDirType]
            omega
          · simp [List.filter_append, List.length_append, List.map_append,
              List.sum_append, hdc, Node.isDirType]
          · intro c hc g
            rcases List.mem_append.mp hc with hc | hc
            · exact hall c hc g
            · rcases List.mem_singleton.mp hc with rfl
              cases g with
              | zero => rfl
              | succ g => rfl
      | dir nm2 l2 en2 =>
        rcases hsc : scanChild (.dir nm2 l2 en2)
            (path ++ [FSEntry.name (.dir nm2 l2 en2)]) with e | sub
        · simp only [scanItems, if_neg hx, hsc]
          exact ⟨hsz, hfc, hdc, hall⟩
        · simp only [scanItems, if_neg hx, hsc]
          obtain ⟨hsubd, hsubagg⟩ :=
            hchild (.dir nm2 l2 en2) (List.mem_cons_self _ _) _ sub hsc
          apply ih _ hrest
          refine ⟨?_, ?_, ?_, ?_⟩
          · simp [List.map_append, List.sum_append, hsz]
          · simp [List.filter_append, List.length_append, List.map_append,
              List.sum_append, hfc, hsubd]
            omega
          · simp [List.filter_append, List.length_append, List.map_append,
              List.sum_append, hdc, hsubd]
            omega
          · intro c hc g
            rcases List.mem_append.mp hc with hc | hc
            · exact hall c hc g
            · rcases List.mem_singleton.mp hc with rfl
              exact hsubagg g

/-- A successful scan satisfies the aggregation invariants everywhere. -/
theorem scanFuel_agg :
    ∀ (fuel : Nat) (fs : FSEntry) (path ignorePatterns : List String)
      (maxFileSize : Nat) (node : Node),
      scanFuel fuel fs path ignorePatterns maxFileSize = .ok node →
      node.isDirType = true ∧ ∀ g, aggFuel g node = true := by
  intro fuel
  induction fuel with
  | zero =>
    intro fs path ignorePatterns maxFileSize node h
    exact absurd h (by simp [scanFuel])
  | succ fuel ih =>
    intro fs path ignorePatterns maxFileSize node h
    cases fs with
    | file nm readable bytes => exact absurd h (by simp [scanFuel])
    | dir nm listable entries =>
      rw [scanFuel] at h
      by_cases hl : listable = true
      · rw [if_pos hl] at h
        have hchild : ∀ e ∈ sortEntries entries, ∀ p nd,
            scanFuel fuel e p ignorePatterns maxFileSize = .ok nd →
            nd.isDirType = true ∧ ∀ g, aggFuel g nd = true :=
          fun e _ p nd hnd => ih e p ignorePatterns maxFileSize nd hnd
        have hinit : accAgg (initAcc nm) := by
          refine ⟨rfl, rfl, rfl, ?_⟩
          intro c hc
          exact absurd hc (List.not_mem_nil c)
        have hagg := scanItems_agg (fun e p => scanFuel fuel e p ignorePatterns maxFileSize)
          path ignorePatterns maxFileSize (sortEntries entries) (initAcc nm) hchild hinit
        rcases hsi : scanItems (fun e p => scanFuel fuel e p ignorePatterns maxFileSize)
            path ignorePatterns maxFileSize (sortEntries entries) (initAcc nm) with ⟨err, acc⟩
        rw [hsi] at h hagg
        obtain ⟨hsz, hfc, hdc, hall⟩ := hagg
        have hnode : node = acc.toNode := by
          rcases err with _ | e
          · simpa using h.symm
          · cases e with
            | permissionError => simpa using h.symm
            | ioError => exact absurd h (by simp)
        subst hnode
        refine ⟨rfl, ?_⟩
        intro g
        cases g with
        | zero => rfl
        | succ g =>
          show aggFuel (g + 1) (.dir acc.nm acc.size acc.children acc.file_count
            acc.dir_count) = true
          simp only [aggFuel, Bool.and_eq_true, decide_eq_true_eq, List.all_eq_true]
          exact ⟨⟨⟨hsz, hfc⟩, hdc⟩, fun c hc => hall c hc g⟩
      · rw [if_neg hl] at h
        have hnode : node = (initAcc nm).toNode := by simpa using h.symm
        subst hnode
        refine ⟨rfl, ?_⟩
        intro g
        cases g with
        | zero => rfl
        | succ g => rfl

/-- C1: every directory node returned by `scan_directory` satisfies the
aggregation invariants at every depth: `size` is the sum of the direct
children's sizes (files contribute their byte size, subdirectories their
aggregated size), `file_count` is the number of direct file children plus
the sum of the direct subdirectories' `file_count`s, and `dir_count` is the
number of direct directory children plus the sum of their `dir_count`s. -/
theorem scan_directory_aggregation {fs : FSEntry} {path ignorePatterns : List String}
    {maxFileSize : Nat} {node : Node}
    (h : scan_directory fs path ignorePatterns maxFileSize = .ok node) :
    ∀ g, aggFuel g node = true :=
  (scanFuel_agg (FSEntry.esize fs) fs path ignorePatterns maxFileSize node h).2

/-- Witness for `scan_directory_aggregation`: a concrete two-level scan whose
result satisfies the aggregation check at full depth. -/
theorem scan_directory_aggregation_witness :
    aggFuel 3 (Node.dir "r" 4 [Node.file "a.txt" 2 "Hi",
      Node.dir "s" 2 [Node.file "b.bin" 2 "[Binary file]"] 1 0] 2 1) = true :=
  @scan_directory_aggregation
    (.dir "r" true [.file "a.txt" true [72, 105],
      .dir "s" true [.file "b.bin" true [0, 1]]])
    ["root", "r"] [] 100
    (Node.dir "r" 4 [Node.file "a.txt" 2 "Hi",
      Node.dir "s" 2 [Node.file "b.bin" 2 "[Binary file]"] 1 0] 2 1)
    rfl 3

/-! ## Observers of the node tree: names, rendered names, content blocks -/

/-- All node names occurring in a tree (fueled; at fuel 0 nothing is listed,
so membership for every fuel describes the whole tree). -/
def namesFuel : Nat → Node → List String
  | 0, _ => []
  | _ + 1, .file nm _ _ => [nm]
  | fuel + 1, .dir nm _ children _ _ =>
    nm :: (children.map (fun c => namesFuel fuel c)).flatten

/-- The names the tree renderer emits, one per line, in its emission order:
the node's own name when non-empty, then the children sorted the renderer's
way. -/
def treeNamesFuel : Nat → Node → List String
  | 0, _ => []
  | _ + 1, .file nm _ _ => if nm ≠ "" then [nm] else []
  | fuel + 1, .dir nm _ children _ _ =>
    (if nm ≠ "" then [nm] else []) ++
      ((sortTreeChildren children).map (fun c => treeNamesFuel fuel c)).flatten

/-- The blocks the content renderer emits, in its emission order, as
(relative path as segments, content) pairs; the directory case extends the
base path exactly as `create_file_content_string` builds `current_path`. -/
def blocksFuel : Nat → Node → List String → List (List String × String)
  | 0, _, _ => []
  | _ + 1, .file nm _ content, base => [(base ++ [nm], content)]
  | fuel + 1, .dir nm _ children _ _, base =>
    ((sortContentChildren children).map
      (fun c => blocksFuel fuel c (if nm ≠ "" then base ++ [nm] else []))).flatten

theorem treeNamesFuel_subset : ∀ (fuel : Nat) (node : Node) {s : String},
    s ∈ treeNamesFuel fuel node → s ∈ namesFuel fuel node := by
  intro fuel
  induction fuel with
  | zero => intro node s h; exact absurd h (List.not_mem_nil s)
  | succ fuel ih =>
    intro node s h
    cases node with
    | file nm sz ct =>
      by_cases hnm : nm ≠ ""
      · simp only [treeNamesFuel, if_pos hnm] at h
        exact h
      · simp only [treeNamesFuel, if_neg hnm] at h
        exact absurd h (List.not_mem_nil s)
    | dir nm sz children fc dc =>
      simp only [treeNamesFuel, List.mem_append] at h
      rcases h with h | h
      · by_cases hnm : nm ≠ ""
        · rw [if_pos hnm] at h
          rcases List.mem_singleton.mp h with rfl
          exact List.mem_cons_self _ _
        · rw [if_neg hnm] at h
          exact absurd h (List.not_mem_nil s)
      · rw [List.mem_flatten] at h
        obtain ⟨l, hl, hsl⟩ := h
        rw [List.mem_map] at hl
        obtain ⟨c, hc, rfl⟩ := hl
        have hc2 : c ∈ children := mem_sortTreeChildren hc
        exact List.mem_cons_of_mem _ (List.mem_flatten.mpr
          ⟨namesFuel fuel c, List.mem_map.mpr ⟨c, hc2, rfl⟩, ih c hsl⟩)

theorem blocksFuel_segs : ∀ (fuel : Nat) (node : Node) (base : List String)
    {blk : List String × String}, blk ∈ blocksFuel fuel node base →
    ∀ s ∈ blk.1, s ∈ base ∨ s ∈ namesFuel fuel node := by
  intro fuel
  induction fuel with
  | zero => intro node base blk h; exact absurd h (List.not_mem_nil blk)
  | succ fuel ih =>
    intro node base blk h s hs
    cases node with
    | file nm sz ct =>
      rcases List.mem_singleton.mp h with rfl
      rcases List.mem_append.mp hs with hb | hn
      · exact Or.inl hb
      · rcases List.mem_singleton.mp hn with rfl
        exact Or.inr (List.mem_singleton.mpr rfl)
    | dir nm sz children fc dc =>
      simp only [blocksFuel, List.mem_flatten] at h
      obtain ⟨l, hl, hbl⟩ := h
      rw [List.mem_map] at hl
      obtain ⟨c, hc, rfl⟩ := hl
      have hc2 : c ∈ children := mem_sortContentChildren hc
      have hmemnames : ∀ t, t ∈ namesFuel fuel c → t ∈ namesFuel (fuel + 1)
          (.dir nm sz children fc dc) :=
        fun t ht => List.mem_cons_of_mem _ (List.mem_flatten.mpr
          ⟨namesFuel fuel c, List.mem_map.mpr ⟨c, hc2, rfl⟩, ht⟩)
      rcases ih c _ hbl s hs with hb | hn
      · by_cases hnm : nm ≠ ""
        · rw [if_pos hnm] at hb
          rcases List.mem_append.mp hb with hb2 | hb2
          · exact Or.inl hb2
          · rcases List.mem_singleton.mp hb2 with rfl
            exact Or.inr (List.mem_cons_self _ _)
        · rw [if_neg hnm] at hb
          exact absurd hb (List.not_mem_nil s)
      · exact Or.inr (hmemnames s hn)

/-! ## Uniform exclusion keeps a name out of the whole scanned tree -/

theorem scanItems_names {n : String}
    (scanChild : FSEntry → List String → Except PyError Node)
    (path ignorePatterns : List String) (maxFileSize : Nat)
    (hEx : ∀ (p : List String) (d : Bool),
      should_exclude (p ++ [n]) p d ignorePatterns = true) :
    ∀ (items : List FSEntry) (acc : ScanAcc),
      (∀ e ∈ items, ∀ p nd, scanChild e p = .ok nd →
        nd.name = e.name ∧ ∀ g s, s ∈ namesFuel g nd → s = e.name ∨ s ≠ n) →
      (∀ c ∈ acc.children, ∀ g s, s ∈ namesFuel g c → s ≠ n) →
      ∀ c ∈ (scanItems scanChild path ignorePatterns maxFileSize items acc).2.children,
        ∀ g s, s ∈ namesFuel g c → s ≠ n := by
  intro items
  induction items with
  | nil => intro acc _ hacc; exact hacc
  | cons item rest ih =>
    intro acc hchild hacc
    have hrest : ∀ e ∈ rest, ∀ p nd, scanChild e p = .ok nd →
        nd.name = e.name ∧ ∀ g s, s ∈ namesFuel g nd → s = e.name ∨ s ≠ n :=
      fun e he => hchild e (List.mem_cons_of_mem item he)
    by_cases hx : should_exclude (path ++ [item.name]) path item.isDirE ignorePatterns
    · simp only [scanItems, if_pos hx]
      exact ih acc hrest hacc
    · have hnn : item.name ≠ n := by
        intro heq
        rw [heq] at hx
        exact hx (hEx path item.isDirE)
      cases item with
      | file nm readable bytes =>
        rcases hfcnt : fileContent readable bytes bytes.length maxFileSize with e | content
        · simp only [scanItems, if_neg hx, hfcnt]
          exact hacc
        · simp only [scanItems, if_neg hx, hfcnt]
          apply ih _ hrest
          intro c hc g s hsn
          rcases List.mem_append.mp hc with hc | hc
          · exact hacc c hc g s hsn
          · rcases List.mem_singleton.mp hc with rfl
            cases g with
            | zero => exact absurd hsn (List.not_mem_nil s)
            | succ g =>
              rcases List.mem_singleton.mp hsn with rfl
              exact hnn
      | dir nm2 l2 en2 =>
        rcases hsc : scanChild (.dir nm2 l2 en2)
            (path ++ [FSEntry.name (.dir nm2 l2 en2)]) with e | sub
        · simp only [scanItems, if_neg hx, hsc]
          exact hacc
        · simp only [scanItems, if_neg hx, hsc]
          obtain ⟨hsubnm, hsubnames⟩ :=
            hchild (.dir nm2 l2 en2) (List.mem_cons_self _ _) _ sub hsc
          apply ih _ hrest
          intro c hc g s hsn
          rcases List.mem_append.mp hc with hc | hc
          · exact hacc c hc g s hsn
          · rcases List.mem_singleton.mp hc with rfl
            rcases hsubnames g s hsn with heq | hne
            · rw [heq]
              exact hnn
            · exact hne

theorem scanFuel_excludes {n : String} {ignorePatterns : List String}
    (hEx : ∀ (p : List String) (d : Bool),
      should_exclude (p ++ [n]) p d ignorePatterns = true) :
    ∀ (fuel : Nat) (fs : FSEntry) (path : List String) (maxFileSize : Nat)
      (node : Node),
      scanFuel fuel fs path ignorePatterns maxFileSize = .ok node →
      node.name = fs.name ∧ ∀ g s, s ∈ namesFuel g node → s = fs.name ∨ s ≠ n := by
  intro fuel
  induction fuel with
  | zero =>
    intro fs path maxFileSize node h
    exact absurd h (by simp [scanFuel])
  | succ fuel ih =>
    intro fs path maxFileSize node h
    cases fs with
    | file nm readable bytes => exact absurd h (by simp [scanFuel])
    | dir nm listable entries =>
      rw [scanFuel] at h
      by_cases hl : listable = true
      · rw [if_pos hl] at h
        have hchild : ∀ e ∈ sortEntries entries, ∀ p nd,
            scanFuel fuel e p ignorePatterns maxFileSize = .ok nd →
            nd.name = e.name ∧ ∀ g s, s ∈ namesFuel g nd → s = e.name ∨ s ≠ n := by
          intro e _ p nd hnd
          cases e with
          | file nm2 r2 b2 =>
            rw [scanFuel_file] at hnd
            exact absurd hnd (by simp)
          | dir nm2 l2 en2 => exact ih _ p maxFileSize nd hnd
        have hinit : ∀ c ∈ (initAcc nm).children, ∀ g s, s ∈ namesFuel g c → s ≠ n :=
          fun c hc => absurd hc (List.not_mem_nil c)
        have hnames := scanItems_names
          (fun e p => scanFuel fuel e p ignorePatterns maxFileSize)
          path ignorePatterns maxFileSize hEx
          (sortEntries entries) (initAcc nm) hchild hinit
        have hnm := scanItems_nm (fun e p => scanFuel fuel e p ignorePatterns maxFileSize)
          path ignorePatterns maxFileSize (sortEntries entries) (initAcc nm)
        rcases hsi : scanItems (fun e p => scanFuel fuel e p ignorePatterns maxFileSize)
            path ignorePatterns maxFileSize (sortEntries entries) (initAcc nm)
          with ⟨err, acc⟩
        rw [hsi] at h hnames hnm
        have hnode : node = acc.toNode := by
          rcases err with _ | e
          · simpa using h.symm
          · cases e with
            | permissionError => simpa using h.symm
            | ioError => exact absurd h (by simp)
        subst hnode
        refine ⟨hnm, ?_⟩
        intro g s hsn
        cases g with
        | zero => exact absurd hsn (List.not_mem_nil s)
        | succ g =>
          rcases List.mem_cons.mp hsn with rfl | hsn2
          · exact Or.inl hnm
          · rw [List.mem_flatten] at hsn2
            obtain ⟨l, hl, hsl⟩ := hsn2
            rw [List.mem_map] at hl
            obtain ⟨c, hc, rfl⟩ := hl
            exact Or.inr (hnames c hc g s hsl)
      · rw [if_neg hl] at h
        have hnode : node = (initAcc nm).toNode := by simpa using h.symm
        subst hnode
        refine ⟨rfl, ?_⟩
        intro g s hsn
        cases g with
        | zero => exact absurd hsn (List.not_mem_nil s)
        | succ g =>
          rcases List.mem_cons.mp hsn with rfl | hsn2
          · exact Or.inl rfl
          · rw [List.mem_flatten] at hsn2
            obtain ⟨l, hl, _⟩ := hsn2
            rw [List.mem_map] at hl
            obtain ⟨c, hc, rfl⟩ := hl
            exact absurd hc (by simp [initAcc, ScanAcc.toNode, Node.children])

/-! ## The content renderer factors through its block list -/

theorem joinStrs_append (l1 l2 : List String) :
    joinStrs (l1 ++ l2) = joinStrs l1 ++ joinStrs l2 := by
  induction l1 with
  | nil => simp [joinStrs]
  | cons s rest ih => simp [joinStrs, ih, String.append_assoc]

theorem renderSegs_ne_empty {x : String} (hx : x ≠ "") (rest : List String) :
    renderSegs (x :: rest) ≠ "" := by
  cases rest with
  | nil => exact hx
  | cons y rest2 =>
    intro h
    have hdata : (x ++ "/" ++ renderSegs (y :: rest2)).data = ("" : String).data :=
      congrArg String.data h
    rw [String.data_append, String.data_append] at hdata
    simp at hdata

theorem renderSegs_append : ∀ {bs : List String}, (∀ s ∈ bs, s ≠ "") →
    ∀ nm : String, renderSegs (bs ++ [nm]) = ospJoin (renderSegs bs) nm := by
  intro bs
  induction bs with
  | nil =>
    intro _ nm
    simp [renderSegs, ospJoin]
  | cons x rest ih =>
    intro hb nm
    have hx : x ≠ "" := hb x (List.mem_cons_self _ _)
    have hrest : ∀ s ∈ rest, s ≠ "" := fun s hs => hb s (List.mem_cons_of_mem x hs)
    cases rest with
    | nil =>
      show renderSegs [x, nm] = ospJoin (renderSegs [x]) nm
      simp [renderSegs, ospJoin, hx]
    | cons y rest2 =>
      have hy : y ≠ "" := hrest y (List.mem_cons_self _ _)
      have h1 : renderSegs (x :: ((y :: rest2) ++ [nm])) =
          x ++ "/" ++ renderSegs ((y :: rest2) ++ [nm]) := rfl
      have h2 : renderSegs (x :: y :: rest2) = x ++ "/" ++ renderSegs (y :: rest2) := rfl
      have hRne : renderSegs (y :: rest2) ≠ "" := renderSegs_ne_empty hy rest2
      have hXRne : x ++ "/" ++ renderSegs (y :: rest2) ≠ "" := by
        intro h
        have hdata : (x ++ "/" ++ renderSegs (y :: rest2)).data = ("" : String).data :=
          congrArg String.data h
        rw [String.data_append, String.data_append] at hdata
        simp at hdata
      show renderSegs ((x :: y :: rest2) ++ [nm]) = ospJoin (renderSegs (x :: y :: rest2)) nm
      rw [List.cons_append, h1, ih hrest nm, h2]
      simp only [ospJoin, if_neg hXRne, if_neg hRne]
      simp [String.append_assoc]

/-- The content renderer's output is exactly the concatenation of its block
list: each block is the two separator lines around the `File:` header plus
the content and a blank line, in block order, with the header path the
segment path joined by separators. -/
theorem contentFuel_blocks :
    ∀ (fuel : Nat) (node : Node) (bs : List String), (∀ s ∈ bs, s ≠ "") →
      contentFuel fuel node (renderSegs bs) =
        joinStrs ((blocksFuel fuel node bs).map
          (fun blk => sepLine ++ "File: " ++ renderSegs blk.1 ++ "\n" ++ sepLine ++
            blk.2 ++ "\n\n")) := by
  intro fuel
  induction fuel with
  | zero => intro node bs _; rfl
  | succ fuel ih =>
    intro node bs hb
    cases node with
    | file nm sz ct =>
      show sepLine ++ "File: " ++ ospJoin (renderSegs bs) nm ++ "\n" ++ sepLine ++
          ct ++ "\n\n" = _
      rw [← renderSegs_append hb nm]
      simp [joinStrs, blocksFuel]
    | dir nm sz children fc dc =>
      have key : ∀ (bs2 : List String), (∀ s ∈ bs2, s ≠ "") →
          ∀ (cs : List Node),
          joinStrs (cs.map (fun c => contentFuel fuel c (renderSegs bs2))) =
            joinStrs (((cs.map (fun c => blocksFuel fuel c bs2)).flatten).map
              (fun blk => sepLine ++ "File: " ++ renderSegs blk.1 ++ "\n" ++ sepLine ++
                blk.2 ++ "\n\n")) := by
        intro bs2 hb2 cs
        induction cs with
        | nil => rfl
        | cons c crest ihc =>
          show contentFuel fuel c (renderSegs bs2) ++ _ = _
          rw [ih c bs2 hb2, ihc]
          rw [show (((c :: crest).map (fun c => blocksFuel fuel c bs2)).flatten) =
            blocksFuel fuel c bs2 ++
              ((crest.map (fun c => blocksFuel fuel c bs2)).flatten) from rfl]
          rw [List.map_append, joinStrs_append]
      by_cases hne : nm ≠ ""
      · have hcur : (if nm ≠ "" then ospJoin (renderSegs bs) nm else "") =
            renderSegs (bs ++ [nm]) := by
          rw [if_pos hne, ← renderSegs_append hb nm]
        have hb2 : ∀ s ∈ bs ++ [nm], s ≠ "" := by
          intro s hs
          rcases List.mem_append.mp hs with hs | hs
          · exact hb s hs
          · rcases List.mem_singleton.mp hs with rfl
            exact hne
        show joinStrs ((sortContentChildren children).map
            (fun c => contentFuel fuel c
              (if nm ≠ "" then ospJoin (renderSegs bs) nm else ""))) = _
        rw [hcur]
        rw [key (bs ++ [nm]) hb2 (sortContentChildren children)]
        simp only [blocksFuel, if_pos hne]
      · have hcur : (if nm ≠ "" then ospJoin (renderSegs bs) nm else "") =
            renderSegs ([] : List String) := by
          rw [if_neg hne]
          rfl
        have hb2 : ∀ s ∈ ([] : List String), s ≠ "" :=
          fun s hs => absurd hs (List.not_mem_nil s)
        show joinStrs ((sortContentChildren children).map
            (fun c => contentFuel fuel c
              (if nm ≠ "" then ospJoin (renderSegs bs) nm else ""))) = _
        rw [hcur]
        rw [key [] hb2 (sortContentChildren children)]
        simp only [blocksFuel, if_neg hne]

/-- C5: when a name is excluded by the patterns wherever it appears (as the
scanner tests it: relative to its immediate parent, whether as file or as
directory) and the scan root itself is not so named, then no node with that
name exists anywhere in the returned tree, the tree renderer emits no line
for it, and no content-dump block's relative path passes through it — the
excluded directory and everything inside it is absent from both outputs. -/
theorem scan_exclusion_absence {n : String} {fs : FSEntry}
    {path ignorePatterns : List String} {maxFileSize : Nat} {node : Node}
    (hEx : ∀ (p : List String) (d : Bool),
      should_exclude (p ++ [n]) p d ignorePatterns = true)
    (hRoot : FSEntry.name fs ≠ n)
    (h : scan_directory fs path ignorePatterns maxFileSize = .ok node) :
    (∀ g s, s ∈ namesFuel g node → s ≠ n) ∧
    (∀ g, n ∉ treeNamesFuel g node) ∧
    (∀ g blk, blk ∈ blocksFuel g node [] → n ∉ blk.1) ∧
    create_file_content_string node "" =
      joinStrs ((blocksFuel node.nsize node []).map
        (fun blk => sepLine ++ "File: " ++ renderSegs blk.1 ++ "\n" ++ sepLine ++
          blk.2 ++ "\n\n")) := by
  have hmain := scanFuel_excludes hEx (FSEntry.esize fs) fs path maxFileSize node h
  have h1 : ∀ g s, s ∈ namesFuel g node → s ≠ n := by
    intro g s hs
    rcases hmain.2 g s hs with heq | hne
    · rw [heq]
      exact hRoot
    · exact hne
  refine ⟨h1, ?_, ?_, ?_⟩
  · intro g hmem
    exact h1 g n (treeNamesFuel_subset g node hmem) rfl
  · intro g blk hblk hmem
    rcases blocksFuel_segs g node [] hblk n hmem with habs | hnames
    · exact absurd habs (List.not_mem_nil n)
    · exact h1 g n hnames rfl
  · exact contentFuel_blocks node.nsize node []
      (fun s hs => absurd hs (List.not_mem_nil s))

/-- Witness for `scan_exclusion_absence`: scanning a root holding a
`node_modules` directory (with a file inside) next to a file `a`, with the
pattern `node_modules`, yields a tree whose rendered names never include
`node_modules`. -/
theorem scan_exclusion_absence_witness :
    "node_modules" ∉ treeNamesFuel 3 (Node.dir "r" 1 [Node.file "a" 1 "B"] 1 0) :=
  (@scan_exclusion_absence "node_modules"
    (.dir "r" true [.dir "node_modules" true [.file "x" true [65]],
      .file "a" true [66]])
    [] ["node_modules"] 10
    (Node.dir "r" 1 [Node.file "a" 1 "B"] 1 0)
    (fun p d => by
      rw [should_exclude_parent]
      cases d <;> decide)
    (by decide) rfl).2.1 3

/-! ## The tree renderer emits one line per non-empty-named node -/

theorem count_append_str (a b : String) :
    ((a ++ b).data).count '\n' = a.data.count '\n' + b.data.count '\n' := by
  rw [String.data_append, List.count_append]

theorem count_eq_zero_of_not_mem {s : String} (h : '\n' ∉ s.data) :
    s.data.count '\n' = 0 :=
  List.count_eq_zero.mpr h

theorem treeFuel_count :
    ∀ (fuel : Nat) (node : Node) (pfx : String) (is_last : Bool),
      (∀ s ∈ namesFuel fuel node, '\n' ∉ s.data) → '\n' ∉ pfx.data →
      (treeFuel fuel node pfx is_last).data.count '\n' =
        (treeNamesFuel fuel node).length := by
  intro fuel
  induction fuel with
  | zero => intro node pfx is_last _ _; rfl
  | succ fuel ih =>
    intro node pfx is_last hnames hpfx
    have hconn : ∀ b : Bool, (treeConnector b).data.count '\n' = 0 := by
      intro b
      cases b <;> decide
    cases node with
    | file nm sz ct =>
      have hnm : '\n' ∉ nm.data := hnames nm (by simp [namesFuel])
      by_cases hne : nm ≠ ""
      · simp only [treeFuel, treeNamesFuel, Node.name, if_pos hne]
        rw [count_append_str, count_append_str, count_append_str,
          count_eq_zero_of_not_mem hpfx, count_eq_zero_of_not_mem hnm, hconn]
        rfl
      · simp only [treeFuel, treeNamesFuel, Node.name, if_neg hne]
        rfl
    | dir nm sz children fc dc =>
      have hnm : '\n' ∉ nm.data := hnames nm (List.mem_cons_self _ _)
      have hchildnames : ∀ c ∈ sortTreeChildren children,
          ∀ s ∈ namesFuel fuel c, '\n' ∉ s.data := by
        intro c hc s hs
        exact hnames s (List.mem_cons_of_mem _ (List.mem_flatten.mpr
          ⟨namesFuel fuel c,
            List.mem_map.mpr ⟨c, mem_sortTreeChildren hc, rfl⟩, hs⟩))
      have hkids : ∀ (cs : List Node),
          (∀ c ∈ cs, ∀ s ∈ namesFuel fuel c, '\n' ∉ s.data) →
          ∀ (p2 : String), '\n' ∉ p2.data →
          (renderKids (fun c p l => treeFuel fuel c p l) p2 cs).data.count '\n' =
            ((cs.map (fun c => treeNamesFuel fuel c)).flatten).length := by
        intro cs
        induction cs with
        | nil => intro _ p2 _; rfl
        | cons c crest ihc =>
          intro hcs p2 hp2
          cases crest with
          | nil =>
            simp only [renderKids]
            rw [ih c p2 true (hcs c (List.mem_cons_self _ _)) hp2]
            simp
          | cons c2 crest2 =>
            simp only [renderKids]
            rw [count_append_str, ih c p2 false (hcs c (List.mem_cons_self _ _)) hp2,
              ihc (fun d hd => hcs d (List.mem_cons_of_mem c hd)) p2 hp2]
            simp [List.length_append]
      have hnewpfx : '\n' ∉ (pfx ++ (if is_last then "    " else "│   ")).data := by
        rw [String.data_append]
        intro hmem
        rcases List.mem_append.mp hmem with hmem | hmem
        · exact hpfx hmem
        · cases is_last <;> revert hmem <;> decide
      by_cases hne : nm ≠ ""
      · simp only [treeFuel, treeNamesFuel, Node.name, if_pos hne]
        rw [count_append_str,
          hkids (sortTreeChildren children) hchildnames _ hnewpfx,
          count_append_str, count_append_str, count_append_str,
          count_eq_zero_of_not_mem hpfx, count_eq_zero_of_not_mem hnm, hconn]
        simp
        omega
      · simp only [treeFuel, treeNamesFuel, Node.name, if_neg hne]
        rw [count_append_str,
          hkids (sortTreeChildren children) hchildnames _ hnewpfx]
        simp

/-- C6: `create_tree_structure` orders every directory's children with all
directory nodes before all file nodes and, within each kind group,
case-insensitively by name (the sorted list is a permutation of the children,
pairwise ordered by the renderer's key); and it emits exactly one line per
node with a non-empty name — a node with an empty name (the filesystem-root
edge case) contributes no line while its children are still rendered, which
the emitted-name count records. -/
theorem tree_renderer_order_and_lines :
    (∀ l : List Node,
      (sortTreeChildren l).Perm l ∧ (sortTreeChildren l).Pairwise treeRel) ∧
    (∀ node : Node,
      (∀ s ∈ namesFuel node.nsize node, '\n' ∉ s.data) →
      (create_tree_structure node "" true).data.count '\n' =
        (treeNamesFuel node.nsize node).length) := by
  constructor
  · intro l
    exact ⟨List.perm_insertionSort treeRel l, List.sorted_insertionSort treeRel l⟩
  · intro node hnames
    exact treeFuel_count node.nsize node "" true hnames (by decide)

/-- A directory with one file `aa.txt` and one subdirectory `bb_dir`:
directory-first order and pure-alphabetical order disagree on it. -/
def divergenceChildren : List Node :=
  [Node.file "aa.txt" 1 "x", Node.dir "bb_dir" 1 [Node.file "c.txt" 1 "y"] 1 0]

/-- The directory node wrapping `divergenceChildren`. -/
def divergenceNode : Node := Node.dir "demo" 2 divergenceChildren 2 1

/-- Witness for `tree_renderer_order_and_lines`: on an empty-name-free
concrete tree the rendered line count equals the emitted-name count. -/
theorem tree_renderer_order_and_lines_witness :
    (create_tree_structure divergenceNode "" true).data.count '\n' =
      (treeNamesFuel divergenceNode.nsize divergenceNode).length :=
  tree_renderer_order_and_lines.2 divergenceNode (by decide)

set_option maxRecDepth 4096 in
/-- C7: `create_file_content_string` recurses into a directory's children in
purely alphabetical (case-insensitive) order, ignoring kind — a permutation
of the children pairwise ordered by lowered name only — unlike the tree
renderer's directories-first order; on a file `aa.txt` next to a directory
`bb_dir` the two renderers emit entries in different relative orders, down to
the exact output strings, and this divergence is preserved. -/
theorem content_renderer_order_divergence :
    (∀ l : List Node,
      (sortContentChildren l).Perm l ∧ (sortContentChildren l).Pairwise contentRel) ∧
    ((sortTreeChildren divergenceChildren).map Node.name = ["bb_dir", "aa.txt"] ∧
      (sortContentChildren divergenceChildren).map Node.name = ["aa.txt", "bb_dir"]) ∧
    create_tree_structure divergenceNode "" true =
      "└── demo\n    ├── bb_dir\n    │   └── c.txt\n    └── aa.txt\n" ∧
    create_file_content_string divergenceNode "" =
      sepLine ++ "File: demo/aa.txt\n" ++ sepLine ++ "x\n\n" ++
        sepLine ++ "File: demo/bb_dir/c.txt\n" ++ sepLine ++ "y\n\n" := by
  refine ⟨?_, ⟨by decide, by decide⟩, by rfl, by rfl⟩
  intro l
  exact ⟨List.perm_insertionSort contentRel l, List.sorted_insertionSort contentRel l⟩
